import Mathlib

/-!
# Verification of the solrdump stream-to-files pipeline

Shallow embedding of `src/main.go` (package `main` of frizner/solrdump).

The program pulls page-or-error results from a Solr cursor stream, assigns
each page a sequential file index, and writes every page to its own JSON
file concurrently, aggregating a single exit status.

Embedding conventions:
* JSON values written by the writer are modelled by the inductive `JVal`.
  Documents come off the wire as `json.RawMessage` in Go; here a raw document
  is represented by the value it encodes, and Go's `json.Marshal` by the
  executable encoder `encL` (compact output, HTML-escaping enabled, as in
  `encoding/json` with default settings).  JSON numbers are modelled as
  integers.  `json.Unmarshal` into `interface{}` stores every number as a
  `float64`; that re-coding is modelled value-wise by `roundToF64`
  (binary64 rounding of the integer).  `encL` prints a number as plain
  decimal digits, matching Go's formatter for integral values of magnitude
  below 1e21; beyond that Go switches to exponent notation, a range no
  theorem below relies on.
* File bytes are modelled as `List Char`.
* Fallible Go functions returning `(T, error)` are modelled with `Option`.
* The concurrent part of `main` (goroutines per page, `sync.WaitGroup`,
  `os.Exit(statusCode)`) is modelled by the small-step relation `Step` on
  `MState`, with one transition per event: consuming a stream result,
  completing one in-flight write goroutine, and exiting after `wg.Wait()`.
-/

/-- JSON values, as produced and consumed by `encoding/json` in `main.go`.
Object fields keep their textual order; `jnum` models JSON numbers as
integers. -/
inductive JVal where
  | jnull
  | jbool (b : Bool)
  | jnum (n : Int)
  | jstr (s : String)
  | jarr (xs : List JVal)
  | jobj (fs : List (String × JVal))

/-! ## Decimal digits (Go `strconv`/`encoding/json` integer formatting) -/

/-- Character for a decimal digit value below 10. -/
def digitChar (d : Nat) : Char := Char.ofNat (48 + d)

/-- Decimal digits of `n`, most significant first; the first argument is
fuel (always supplied strictly above `n`) making the recursion on
`n / 10` structural. -/
def natToDigitsAux : Nat → Nat → List Char
  | 0, _ => []
  | fuel + 1, n =>
    if n < 10 then [digitChar n]
    else natToDigitsAux fuel (n / 10) ++ [digitChar (n % 10)]

/-- Decimal digit characters of `n`, most significant first; models how
`encoding/json` prints an integer-valued number. -/
def natToDigits (n : Nat) : List Char := natToDigitsAux (n + 1) n

theorem natToDigitsAux_eq_natToDigits :
    ∀ n f, n < f → natToDigitsAux f n = natToDigits n := by
  intro n
  induction n using Nat.strong_induction_on with
  | _ n ih =>
    intro f hf
    cases f with
    | zero => omega
    | succ f =>
      by_cases h10 : n < 10
      · simp [natToDigitsAux, natToDigits, h10]
      · have hdiv : n / 10 < n := Nat.div_lt_self (by omega) (by omega)
        unfold natToDigits
        simp only [natToDigitsAux, h10, if_false]
        rw [ih (n / 10) hdiv f (by omega), ih (n / 10) hdiv n (by omega)]

/-- Encoding of a JSON integer: minus sign for negatives, then digits. -/
def intEnc (i : Int) : List Char :=
  if i < 0 then '-' :: natToDigits i.natAbs else natToDigits i.toNat

/-! ## String escaping (Go `encoding/json` string encoder, HTML escaping on) -/

/-- Lower-case hex digit character for a value below 16. -/
def hexDigit (d : Nat) : Char :=
  if d < 10 then Char.ofNat (48 + d) else Char.ofNat (97 + (d - 10))

/-- How Go's `encoding/json` escapes one character inside a string literal:
quote, backslash, `\n`/`\r`/`\t`, other control characters as `\u00XX`,
and the HTML-sensitive `<`, `>`, `&`, U+2028, U+2029 as `\uXXXX`. -/
def escapeChar (c : Char) : List Char :=
  if c = '"' then ['\\', '"']
  else if c = '\\' then ['\\', '\\']
  else if c = '\n' then ['\\', 'n']
  else if c = '\r' then ['\\', 'r']
  else if c = '\t' then ['\\', 't']
  else if c.toNat < 32 then
    ['\\', 'u', '0', '0', hexDigit (c.toNat / 16), hexDigit (c.toNat % 16)]
  else if c = '<' then ['\\', 'u', '0', '0', '3', 'c']
  else if c = '>' then ['\\', 'u', '0', '0', '3', 'e']
  else if c = '&' then ['\\', 'u', '0', '0', '2', '6']
  else if c.toNat = 0x2028 then ['\\', 'u', '2', '0', '2', '8']
  else if c.toNat = 0x2029 then ['\\', 'u', '2', '0', '2', '9']
  else [c]

/-- Escape every character of a string body. -/
def escList : List Char → List Char
  | [] => []
  | c :: cs => escapeChar c ++ escList cs

/-! ## The JSON encoder (Go `json.Marshal`, compact) -/

mutual

/-- Compact JSON encoding of a value, as `json.Marshal` emits it. -/
def encL : JVal → List Char
  | .jnull => ['n', 'u', 'l', 'l']
  | .jbool true => ['t', 'r', 'u', 'e']
  | .jbool false => ['f', 'a', 'l', 's', 'e']
  | .jnum i => intEnc i
  | .jstr s => '"' :: (escList s.data ++ ['"'])
  | .jarr xs => '[' :: (encElems xs ++ [']'])
  | .jobj fs => '{' :: (encFields fs ++ ['}'])
termination_by structural v => v

/-- Encoding of array elements, comma separated. -/
def encElems : List JVal → List Char
  | [] => []
  | x :: xs => encL x ++ encElemsTail xs
termination_by structural xs => xs

/-- Elements after the first: each preceded by a comma. -/
def encElemsTail : List JVal → List Char
  | [] => []
  | y :: ys => ',' :: (encL y ++ encElemsTail ys)
termination_by structural ys => ys

/-- Encoding of object fields, comma separated. -/
def encFields : List (String × JVal) → List Char
  | [] => []
  | (k, v) :: fs => ('"' :: (escList k.data ++ ['"', ':'])) ++ encL v ++ encFieldsTail fs
termination_by structural fs => fs

/-- Fields after the first: each preceded by a comma. -/
def encFieldsTail : List (String × JVal) → List Char
  | [] => []
  | (k, v) :: fs =>
    ',' :: (('"' :: (escList k.data ++ ['"', ':'])) ++ encL v ++ encFieldsTail fs)
termination_by structural fs => fs

end

/-! ## The Go map built by `json.Unmarshal(srcDoc, &tdoc)`

`rmVerField` decodes each document into `map[string]interface{}`.  A Go map
keeps one binding per key (later bindings in the input overwrite earlier
ones) and `json.Marshal` iterates it in sorted key order.  `mapInsert`
models one store into the map held in sorted order; `canonMap` models
decoding a whole field list into the map. -/

/-- Byte-wise lexicographic comparison of key strings, as Go sorts map keys
when marshalling (UTF-8 byte order coincides with code-point order). -/
def listLtChars : List Char → List Char → Bool
  | [], [] => false
  | [], _ :: _ => true
  | _ :: _, [] => false
  | c :: cs, d :: ds =>
    if c.toNat < d.toNat then true
    else if d.toNat < c.toNat then false
    else listLtChars cs ds

/-- Key order used by `json.Marshal` on a Go map. -/
def strLt (a b : String) : Bool := listLtChars a.data b.data

/-- Store a binding into a key-sorted association list, replacing any
existing binding for the same key. -/
def mapInsert : List (String × JVal) → String → JVal → List (String × JVal)
  | [], k, v => [(k, v)]
  | (k', v') :: rest, k, v =>
    if k = k' then (k, v) :: rest
    else if strLt k k' then (k, v) :: (k', v') :: rest
    else (k', v') :: mapInsert rest k v

/-- The Go map obtained by unmarshalling the fields `fs`, in its marshal
(iteration) order: sorted by key, last binding per key winning. -/
def canonMap (fs : List (String × JVal)) : List (String × JVal) :=
  fs.foldl (fun m kv => mapInsert m kv.1 kv.2) []

/-- `delete(tdoc, "_version_")` — and, generally, Go's `delete` on the
model map: removes every binding carrying the key. -/
def mapDelete : List (String × JVal) → String → List (String × JVal)
  | [], _ => []
  | (k', v) :: rest, key =>
    if k' = key then mapDelete rest key else (k', v) :: mapDelete rest key

/-! ## `interface{}` value conversion performed by `json.Unmarshal`

Decoding a document into `map[string]interface{}` passes every field value
through `interface{}`: JSON numbers are stored as `float64` (binary64),
nested objects become nested Go maps — re-emitted by `json.Marshal` in
sorted key order with one binding per key — arrays convert elementwise,
and strings, booleans and `null` are unchanged. -/

/-- Number of binary digits of `n` (with `natBits 0 = 0`); the first
argument of the worker is fuel — any amount at least the digit count, and
`natBits` supplies `n` itself — making the halving recursion
structural. -/
def natBitsAux : Nat → Nat → Nat
  | 0, _ => 0
  | fuel + 1, n => if n = 0 then 0 else natBitsAux fuel (n / 2) + 1

/-- Number of binary digits of `n`. -/
def natBits (n : Nat) : Nat := natBitsAux n n

/-- The binary64 value nearest to the integer `n` (round to nearest, ties
to even), as an integer: integers of magnitude up to 2^53 are represented
exactly; larger ones are rounded to the 53-bit significand grid.  This is
how `json.Unmarshal` stores a JSON integer inside an `interface{}`.
(Binary64 overflow, at magnitudes around 2^1024 where the decoder reports
a range error, is outside the modelled range.) -/
def roundToF64 (n : Int) : Int :=
  let a := n.natAbs
  if a ≤ 2 ^ 53 then n
  else
    let k := natBits a - 53
    let p := 2 ^ k
    let q := a / p
    let r := a % p
    let half := p / 2
    let q2 :=
      if half < r then q + 1
      else if r < half then q
      else if q % 2 = 0 then q else q + 1
    if n < 0 then -(Int.ofNat (q2 * p)) else Int.ofNat (q2 * p)

mutual

/-- Go's `interface{}` re-coding of a decoded JSON value: numbers pass
through binary64, nested objects are rebuilt as Go maps (sorted keys, last
binding per key winning, values converted recursively), arrays convert
elementwise; `null`, booleans and strings are unchanged. -/
def goValue : JVal → JVal
  | .jnull => .jnull
  | .jbool b => .jbool b
  | .jnum n => .jnum (roundToF64 n)
  | .jstr s => .jstr s
  | .jarr xs => .jarr (goValueL xs)
  | .jobj fs => .jobj (canonMap (goFieldsConv fs))
termination_by structural v => v

/-- Elementwise `interface{}` re-coding of a decoded array. -/
def goValueL : List JVal → List JVal
  | [] => []
  | x :: xs => goValue x :: goValueL xs
termination_by structural xs => xs

/-- `interface{}` re-coding of each field value of a decoded object, in
textual field order (deduplication and sorting happen in `canonMap`). -/
def goFieldsConv : List (String × JVal) → List (String × JVal)
  | [] => []
  | (k, v) :: fs => (k, goValue v) :: goFieldsConv fs
termination_by structural fs => fs

end

/-! ## `rmVerField` (main.go:136-164) and `saveSolrResp` (main.go:167-193) -/

/-- The value-level body of one iteration of `rmVerField`'s loop:
`json.Unmarshal(srcDoc, &tdoc)` — which fails unless the document is a
JSON object or `null`, converts every field value through `interface{}`
(`goValue`: numbers to binary64, nested objects to Go maps) and builds the
top-level Go map — then `delete(tdoc, "_version_")`.  A `null` document
unmarshals into a nil map which re-marshals as `null`. -/
def stripDocVal : JVal → Option JVal
  | .jobj fs => some (.jobj (mapDelete (canonMap (goFieldsConv fs)) "_version_"))
  | .jnull => some .jnull
  | _ => none

/-- One loop iteration of `rmVerField`: unmarshal, delete `_version_`,
re-marshal (`json.Marshal(&tdoc)`). -/
def stripDoc (d : JVal) : Option (List Char) :=
  (stripDocVal d).map encL

/-- The document bytes accumulated by `rmVerField`'s loop: each document's
re-encoding, followed by a comma whenever further documents remain
(`if n < len(docs)-1`). -/
def rmVerBody : List JVal → Option (List Char)
  | [] => some []
  | d :: ds => do
    let x ← stripDoc d
    let rest ← rmVerBody ds
    pure (x ++ (if ds.isEmpty then [] else [',']) ++ rest)

/-- `rmVerField` (main.go:136-164): opening bracket, the loop's document
bytes, closing bracket and newline (`"]\n"`). -/
def rmVerField (docs : List JVal) : Option (List Char) := do
  let body ← rmVerBody docs
  pure ('[' :: (body ++ [']', '\n']))

/-- `saveSolrResp` (main.go:167-193): with an empty field list the data is
`rmVerField docs`; otherwise `json.Marshal(v.Response.Docs)` with a newline
appended.  The returned bytes are what is written to the destination. -/
def saveSolrResp (emptyfl : Bool) (docs : List JVal) : Option (List Char) :=
  if emptyfl then rmVerField docs
  else some (encL (.jarr docs) ++ ['\n'])

/-- "Concatenate encoded documents with `,` separators": the separator-join
used to state the writer claims. -/
def joinComma : List (List Char) → List Char
  | [] => []
  | x :: xs => x ++ (match xs with | [] => [] | _ :: _ => [',']) ++ joinComma xs

/-- `C10`: For a Page containing zero documents, the stripping
transformation produces exactly the bytes `"[]\n"` — an empty but valid
JSON array with a trailing newline — rather than an error or an empty
file. -/
theorem rmVerField_empty_page_C10 : rmVerField [] = some ['[', ']', '\n'] := rfl

/-! ## Field lookup on the document mapping -/

/-- The value a document mapping associates to a field name (first binding
wins; the model maps carry at most one binding per key). -/
def lookupField : List (String × JVal) → String → Option JVal
  | [], _ => none
  | (k', v) :: rest, k => if k = k' then some v else lookupField rest k

theorem lookupField_mapInsert (m : List (String × JVal)) (k k₀ : String) (v : JVal) :
    lookupField (mapInsert m k₀ v) k = if k = k₀ then some v else lookupField m k := by
  induction m with
  | nil => simp [mapInsert, lookupField]
  | cons kv rest ih =>
    obtain ⟨k', v'⟩ := kv
    by_cases h0 : k₀ = k'
    · subst h0
      by_cases hk : k = k₀ <;> simp [mapInsert, lookupField, hk]
    · by_cases hlt : strLt k₀ k' = true
      · by_cases hk : k = k₀ <;> simp [mapInsert, lookupField, h0, hlt, hk]
      · by_cases hk : k = k'
        · subst hk
          have hne : ¬k = k₀ := fun h => h0 h.symm
          simp [mapInsert, lookupField, h0, hlt, hne]
        · simp [mapInsert, lookupField, h0, hlt, hk, ih]

theorem lookupField_eq_none_of_not_mem (m : List (String × JVal)) (k : String)
    (h : k ∉ m.map Prod.fst) : lookupField m k = none := by
  induction m with
  | nil => rfl
  | cons kv rest ih =>
    simp only [List.map_cons, List.mem_cons] at h
    push_neg at h
    simp [lookupField, h.1, ih h.2]

theorem lookupField_append (l₁ l₂ : List (String × JVal)) (k : String) :
    lookupField (l₁ ++ l₂) k =
      match lookupField l₁ k with
      | some v => some v
      | none => lookupField l₂ k := by
  induction l₁ with
  | nil => simp [lookupField]
  | cons kv t ih =>
    obtain ⟨ka, va⟩ := kv
    by_cases hk : k = ka <;> simp [lookupField, hk, ih]

theorem lookupField_foldl_mapInsert (fs : List (String × JVal))
    (m : List (String × JVal)) (k : String) :
    lookupField (fs.foldl (fun m kv => mapInsert m kv.1 kv.2) m) k =
      match lookupField fs.reverse k with
      | some v => some v
      | none => lookupField m k := by
  induction fs generalizing m with
  | nil => simp [lookupField]
  | cons kv rest ih =>
    obtain ⟨k₀, v₀⟩ := kv
    rw [List.foldl_cons, ih, List.reverse_cons, lookupField_append]
    rcases hrest : lookupField rest.reverse k with _ | v
    · simp only
      rw [lookupField_mapInsert]
      by_cases hk : k = k₀ <;> simp [lookupField, hk]
    · simp

/-- On a document whose field names are distinct, the Go map built by
`json.Unmarshal` associates to each key exactly what the document itself
does. -/
theorem lookupField_canonMap (fs : List (String × JVal)) (k : String)
    (hnd : (fs.map Prod.fst).Nodup) :
    lookupField (canonMap fs) k = lookupField fs k := by
  unfold canonMap
  rw [lookupField_foldl_mapInsert]
  have hrev : lookupField fs.reverse k = lookupField fs k := by
    induction fs with
    | nil => rfl
    | cons kv rest ih =>
      obtain ⟨k₀, v₀⟩ := kv
      simp only [List.map_cons, List.nodup_cons] at hnd
      rw [List.reverse_cons, lookupField_append]
      by_cases hk : k = k₀
      · subst hk
        have hnone : lookupField rest.reverse k = none := by
          apply lookupField_eq_none_of_not_mem
          intro hmem
          apply hnd.1
          have hmem2 : k ∈ (rest.map Prod.fst).reverse := by
            simpa [List.map_reverse] using hmem
          simpa using hmem2
        simp [hnone, lookupField]
      · rw [ih hnd.2]
        rcases hl : lookupField rest k with _ | v <;> simp [lookupField, hk, hl]
  rw [hrev]
  rcases hl : lookupField fs k with _ | v <;> simp [lookupField, hl]

theorem lookupField_mapDelete (m : List (String × JVal)) (k key : String) :
    lookupField (mapDelete m key) k =
      if k = key then none else lookupField m k := by
  induction m with
  | nil => simp [mapDelete, lookupField]
  | cons kv rest ih =>
    obtain ⟨k', v'⟩ := kv
    by_cases hk' : k' = key
    · subst hk'
      by_cases hk : k = k'
      · subst hk
        simp [mapDelete, ih]
      · simp [mapDelete, lookupField, hk, ih]
    · by_cases hk : k = k'
      · subst hk
        have hne : ¬k = key := fun h => hk' h
        simp [mapDelete, lookupField, hk', hne]
      · simp [mapDelete, lookupField, hk', hk, ih]

/-! ## The writer produces a comma-separated JSON array (C3, C4) -/

theorem encElems_eq_joinComma (xs : List JVal) :
    encElems xs = joinComma (xs.map encL) := by
  induction xs with
  | nil => rfl
  | cons x t ih =>
    cases t with
    | nil => simp [encElems, encElemsTail, joinComma]
    | cons y ys =>
      simp only [encElems, encElemsTail, List.map_cons, joinComma] at *
      simp [← ih]

/-- Shared shape lemma: with a non-empty field list the writer emits the
documents unmodified, in order, comma separated inside brackets, with a
trailing newline. -/
theorem saveSolrResp_nonempty_fl (docs : List JVal) :
    saveSolrResp false docs =
      some ('[' :: (joinComma (docs.map encL) ++ [']', '\n'])) := by
  simp [saveSolrResp, encL, encElems_eq_joinComma]

theorem rmVerBody_cons (d : JVal) (ds : List JVal) :
    rmVerBody (d :: ds) = (stripDoc d).bind (fun x =>
      (rmVerBody ds).bind (fun rest =>
        some (x ++ (if ds.isEmpty then [] else [',']) ++ rest))) := rfl

theorem rmVerBody_eq_joinComma (docs : List JVal) (es : List (List Char))
    (hstrip : docs.mapM stripDoc = some es) :
    rmVerBody docs = some (joinComma es) := by
  induction docs generalizing es with
  | nil =>
    simp only [List.mapM_nil, pure, Option.some.injEq] at hstrip
    subst hstrip
    rfl
  | cons d ds ih =>
    rw [List.mapM_cons] at hstrip
    rcases hx : stripDoc d with _ | x <;> rw [hx] at hstrip
    · simp at hstrip
    rcases hrest : ds.mapM stripDoc with _ | rest <;> rw [hrest] at hstrip
    · simp at hstrip
    simp only [Option.bind_eq_bind, Option.some_bind, Option.pure_def, Option.some.injEq] at hstrip
    subst hstrip
    have ihds := ih rest hrest
    cases ds with
    | nil =>
      simp only [List.mapM_nil, pure, Option.some.injEq] at hrest
      subst hrest
      simp [rmVerBody_cons, rmVerBody, hx, joinComma]
    | cons d2 ds2 =>
      rw [List.mapM_cons] at hrest
      rcases hx2 : stripDoc d2 with _ | x2 <;> rw [hx2] at hrest
      · simp at hrest
      rcases hrest2 : ds2.mapM stripDoc with _ | rest2 <;> rw [hrest2] at hrest
      · simp at hrest
      simp only [Option.bind_eq_bind, Option.some_bind, Option.pure_def, Option.some.injEq] at hrest
      subst hrest
      rw [rmVerBody_cons, hx, ihds]
      simp [joinComma]

/-- `C4`: For any Page and either stripping mode, the writer produces a
JSON array whose element order equals the document order within the Page;
in stripping mode the re-encoded documents are concatenated with `,`
separators inside `[` and `]` and the output terminates with a newline,
and in non-stripping mode the document sequence is encoded directly as a
JSON array with a trailing newline appended. -/
theorem page_writer_array_C4 (docs : List JVal) (es : List (List Char))
    (hstrip : docs.mapM stripDoc = some es) :
    rmVerField docs = some ('[' :: (joinComma es ++ [']', '\n'])) ∧
    saveSolrResp true docs = rmVerField docs ∧
    saveSolrResp false docs =
      some ('[' :: (joinComma (docs.map encL) ++ [']', '\n'])) := by
  refine ⟨?_, rfl, saveSolrResp_nonempty_fl docs⟩
  simp [rmVerField, rmVerBody_eq_joinComma docs es hstrip]

/-- Concrete page used to instantiate the writer theorems. -/
def exDocsC4 : List JVal :=
  [.jobj [("a", .jnum 1), ("_version_", .jnum 7)], .jobj [("b", .jbool true)]]

/-- The stripped encodings of `exDocsC4`: `{"a":1}` and `{"b":true}`. -/
def exEsC4 : List (List Char) :=
  [['{', '"', 'a', '"', ':', '1', '}'],
   ['{', '"', 'b', '"', ':', 't', 'r', 'u', 'e', '}']]

theorem page_writer_array_C4_witness :
    exDocsC4.mapM stripDoc = some exEsC4 ∧
    rmVerField exDocsC4 = some ('[' :: (joinComma exEsC4 ++ [']', '\n'])) :=
  ⟨by decide, (page_writer_array_C4 exDocsC4 exEsC4 (by decide)).1⟩

/-! ## The result stream and the consumer loop of `main` (main.go:242-316) -/

/-- The environment of one page's write goroutine (main.go:298-310): the
page's documents, and whether its two filesystem operations succeed
(`os.Create` at main.go:301, `dst.Write` inside `saveSolrResp` at
main.go:188). -/
structure TaskSpec where
  docs : List JVal
  createOk : Bool
  writeOk : Bool

/-- One value received from the `results` channel: `glsolr.CursorSelect`
yields either an `error` or a `*glsolr.Response` (a page). -/
inductive Result where
  | err (msg : String)
  | page (t : TaskSpec)

/-- The consumer loop `for res := range results` (main.go:286-312) begun at
file number `i`: an error is reported to stderr (collected in the second
component) and the loop continues; a page is dispatched with the current
index and `i++` runs (first component, in dispatch order). -/
def consumeFull : List Result → Nat → List (Nat × TaskSpec) × List String
  | [], _ => ([], [])
  | .err e :: rs, i =>
    let p := consumeFull rs i
    (p.1, e :: p.2)
  | .page t :: rs, i =>
    let p := consumeFull rs (i + 1)
    ((i, t) :: p.1, p.2)

/-- Number of Pages in a stream of results. -/
def countPages : List Result → Nat
  | [] => 0
  | .err _ :: rs => countPages rs
  | .page _ :: rs => countPages rs + 1

/-- The Pages of a stream, in arrival order. -/
def pagesOf : List Result → List TaskSpec
  | [] => []
  | .err _ :: rs => pagesOf rs
  | .page t :: rs => t :: pagesOf rs

/-- `fmt.Sprintf("%s%d.json", namePattern, i)` (main.go:293). -/
def fileNameFor (pat : String) (i : Nat) : String :=
  pat ++ String.mk (natToDigits i) ++ ".json"

theorem consumeFull_fst_map_fst (rs : List Result) (i : Nat) :
    (consumeFull rs i).1.map Prod.fst = List.range' i (countPages rs) := by
  induction rs generalizing i with
  | nil => rfl
  | cons r rest ih =>
    cases r with
    | err e => simpa [consumeFull, countPages] using ih i
    | page t =>
      simp only [consumeFull, countPages, List.map_cons, List.range'_succ]
      exact congrArg (i :: ·) (ih (i + 1))

theorem consumeFull_fst_map_snd (rs : List Result) (i : Nat) :
    (consumeFull rs i).1.map Prod.snd = pagesOf rs := by
  induction rs generalizing i with
  | nil => rfl
  | cons r rest ih =>
    cases r with
    | err e => simpa [consumeFull, pagesOf] using ih i
    | page t =>
      simp only [consumeFull, pagesOf, List.map_cons]
      exact congrArg (t :: ·) (ih (i + 1))

theorem consumeFull_fst_length (rs : List Result) (i : Nat) :
    (consumeFull rs i).1.length = countPages rs := by
  have h := congrArg List.length (consumeFull_fst_map_fst rs i)
  simpa using h

theorem consumeFull_append (xs ys : List Result) (i : Nat) :
    consumeFull (xs ++ ys) i =
      ((consumeFull xs i).1 ++ (consumeFull ys (i + countPages xs)).1,
       (consumeFull xs i).2 ++ (consumeFull ys (i + countPages xs)).2) := by
  induction xs generalizing i with
  | nil => simp [consumeFull, countPages]
  | cons r rest ih =>
    cases r with
    | err e => simp [consumeFull, countPages, ih]
    | page t =>
      simp only [List.cons_append, consumeFull, countPages, List.append_eq]
      rw [ih (i + 1)]
      have harith : i + (countPages rest + 1) = i + 1 + countPages rest := by omega
      rw [harith]

/-- `C5`: When the consumer receives an Error result from the stream, it
reports the error to the diagnostic channel and continues pulling
subsequent results: a single Error never terminates stream consumption —
the dispatched pages are exactly those of the stream with the Error
removed, and Pages arriving after the Error are still consumed and
dispatched for writing. -/
theorem error_result_keeps_draining_C5 (xs ys : List Result) (e : String) (i : Nat) :
    (consumeFull (xs ++ .err e :: ys) i).1 = (consumeFull (xs ++ ys) i).1 ∧
    (consumeFull (xs ++ .err e :: ys) i).2 =
      (consumeFull xs i).2 ++ e :: (consumeFull ys (i + countPages xs)).2 := by
  rw [consumeFull_append xs (.err e :: ys) i, consumeFull_append xs ys i]
  simp [consumeFull]

/-! ## Small-step model of `main`'s concurrency (main.go:277-316)

One consumer reads the stream; each Page spawns a write goroutine
(`go func(fName string)`, main.go:298); `wg.Wait()` (main.go:314) joins all
of them before `os.Exit(statusCode)` (main.go:316). -/

/-- Whether a completed write goroutine executes `statusCode = 10`
(main.go:307-309): only when `os.Create` succeeded and `saveSolrResp`
failed — either document re-encoding failed or the `dst.Write` failed.
When `os.Create` fails the goroutine returns early (main.go:303-306)
WITHOUT touching the status. -/
def taskSetsStatus (emptyfl : Bool) (t : TaskSpec) : Bool :=
  t.createOk && ((saveSolrResp emptyfl t.docs).isNone || !t.writeOk)

/-- The bytes that end up in the task's file: full data on success, nothing
durable recorded on a failed write. -/
def fileContents (emptyfl : Bool) (t : TaskSpec) : Option (List Char) :=
  match saveSolrResp emptyfl t.docs with
  | some data => if t.writeOk then some data else none
  | none => none

/-- The directory entry a completed task leaves behind: `os.Create` makes
the file exist as soon as it succeeds, even if the subsequent save fails. -/
def fileOf (emptyfl : Bool) (jt : Nat × TaskSpec) : Option (Nat × Option (List Char)) :=
  if jt.2.createOk then some (jt.1, fileContents emptyfl jt.2) else none

/-- Exit code for argument/validation failure, `os.Exit(11)` (main.go:248). -/
def exitCodeArgs : Int := 11

/-- Exit code for query/stream-setup failure, `os.Exit(-3)` (main.go:264). -/
def exitCodeQuery : Int := -3

/-- Exit code for directory-creation failure, `os.Exit(2)` (main.go:274). -/
def exitCodeDir : Int := 2

/-- The status a failed save stores, `statusCode = 10` (main.go:308). -/
def exitCodeWrite : Int := 10

/-- A configuration of the running process: the unread tail of the results
channel, the file counter `i`, the dispatched-but-unfinished write
goroutines, the finished ones (in completion order), the dispatch log (in
dispatch order), the directory contents, the shared `statusCode`, and
whether `os.Exit` has run. -/
structure MState where
  remaining : List Result
  i : Nat
  pending : List (Nat × TaskSpec)
  comp : List (Nat × TaskSpec)
  log : List (Nat × TaskSpec)
  files : List (Nat × Option (List Char))
  statusCode : Int
  exited : Bool

/-- The state right after `statusCode := 0; i := 1` (main.go:278-281). -/
def initState (rs : List Result) : MState := ⟨rs, 1, [], [], [], [], 0, false⟩

/-- One scheduling step of `main`: the consumer handles the next result
(error: report and continue; page: assign index `i`, dispatch a goroutine,
`i++`), or one in-flight goroutine runs to completion (possibly assigning
the shared `statusCode`), or — only once the stream is exhausted and
`wg.Wait()` has seen every goroutine finish — the process exits. -/
inductive Step (emptyfl : Bool) : MState → MState → Prop
  | consumeErr {e rem i pending comp log files st} :
      Step emptyfl ⟨.err e :: rem, i, pending, comp, log, files, st, false⟩
        ⟨rem, i, pending, comp, log, files, st, false⟩
  | consumePage {t rem i pending comp log files st} :
      Step emptyfl ⟨.page t :: rem, i, pending, comp, log, files, st, false⟩
        ⟨rem, i + 1, pending ++ [(i, t)], comp, log ++ [(i, t)], files, st, false⟩
  | complete {j t rem i p₁ p₂ comp log files st} :
      Step emptyfl ⟨rem, i, p₁ ++ (j, t) :: p₂, comp, log, files, st, false⟩
        ⟨rem, i, p₁ ++ p₂, comp ++ [(j, t)], log,
          files ++ (fileOf emptyfl (j, t)).toList,
          if taskSetsStatus emptyfl t then exitCodeWrite else st, false⟩
  | exit {i comp log files st} :
      Step emptyfl ⟨[], i, [], comp, log, files, st, false⟩
        ⟨[], i, [], comp, log, files, st, true⟩

/-- The configurations the process can be in, for a given full stream. -/
def Reachable (emptyfl : Bool) (rs : List Result) (s : MState) : Prop :=
  Relation.ReflTransGen (Step emptyfl) (initState rs) s

theorem perm_any_eq {α : Type} (f : α → Bool) {l₁ l₂ : List α}
    (h : l₁.Perm l₂) : l₁.any f = l₂.any f := by
  cases h1 : l₁.any f
  · cases h2 : l₂.any f
    · rfl
    · rw [List.any_eq_true] at h2
      obtain ⟨x, hx, hfx⟩ := h2
      rw [List.any_eq_false] at h1
      exact absurd hfx (by simpa using h1 x (h.mem_iff.mpr hx))
  · symm
    rw [List.any_eq_true] at h1 ⊢
    obtain ⟨x, hx, hfx⟩ := h1
    exact ⟨x, h.mem_iff.mp hx, hfx⟩

/-- Invariant of every reachable configuration: the dispatch log is exactly
the consumer function applied to the consumed stream portion, every
dispatched task is pending or completed, the shared status is `10` exactly
when some completed task's save failed after a successful create, the
directory holds the files of the completed creates, and an exited process
has drained the stream and joined every goroutine. -/
structure MInv (emptyfl : Bool) (rs : List Result) (s : MState) : Prop where
  split : ∃ pre, rs = pre ++ s.remaining ∧ s.log = (consumeFull pre 1).1 ∧
      s.i = 1 + countPages pre
  perm : s.log.Perm (s.pending ++ s.comp)
  status : s.statusCode =
      (if s.comp.any (fun jt => taskSetsStatus emptyfl jt.2) then exitCodeWrite else 0)
  filesEq : s.files = s.comp.filterMap (fileOf emptyfl)
  exitedPending : s.exited = true → s.remaining = [] ∧ s.pending = []

theorem countPages_append (xs ys : List Result) :
    countPages (xs ++ ys) = countPages xs + countPages ys := by
  induction xs with
  | nil => simp [countPages]
  | cons r rest ih =>
    cases r with
    | err e => simp [countPages, ih]
    | page t =>
      simp [countPages, ih]
      omega

theorem minv_init (emptyfl : Bool) (rs : List Result) :
    MInv emptyfl rs (initState rs) :=
  ⟨⟨[], rfl, rfl, rfl⟩, List.Perm.refl [], rfl, rfl, fun h => nomatch h⟩

theorem minv_step {emptyfl : Bool} {rs : List Result} {s s' : MState}
    (inv : MInv emptyfl rs s) (hstep : Step emptyfl s s') :
    MInv emptyfl rs s' := by
  obtain ⟨⟨pre, hpre, hlog, hi⟩, hperm, hstatus, hfiles, _hexit⟩ := inv
  cases hstep with
  | @consumeErr e rem i pending comp log files st =>
    dsimp only at hpre hlog hi hperm hstatus hfiles ⊢
    refine ⟨⟨pre ++ [.err e], ?_, ?_, ?_⟩, hperm, hstatus, hfiles, fun h => nomatch h⟩
    · dsimp only
      rw [hpre, List.append_assoc]
      rfl
    · dsimp only
      rw [consumeFull_append]
      simpa [consumeFull] using hlog
    · dsimp only
      rw [countPages_append]
      simp only [countPages]
      omega
  | @consumePage t rem i pending comp log files st =>
    dsimp only at hpre hlog hi hperm hstatus hfiles ⊢
    refine ⟨⟨pre ++ [.page t], ?_, ?_, ?_⟩, ?_, hstatus, hfiles, fun h => nomatch h⟩
    · dsimp only
      rw [hpre, List.append_assoc]
      rfl
    · dsimp only
      rw [consumeFull_append]
      simp only [consumeFull]
      rw [← hlog, ← hi]
    · dsimp only
      rw [countPages_append]
      simp only [countPages]
      omega
    · dsimp only
      have h1 : (log ++ [(i, t)]).Perm ((pending ++ comp) ++ [(i, t)]) :=
        hperm.append_right [(i, t)]
      have h2 : ((pending ++ comp) ++ [(i, t)]).Perm ((pending ++ [(i, t)]) ++ comp) := by
        rw [List.append_assoc, List.append_assoc]
        exact List.perm_append_comm.append_left pending
      exact h1.trans h2
  | @complete j t rem i p₁ p₂ comp log files st =>
    dsimp only at hpre hlog hi hperm hstatus hfiles ⊢
    refine ⟨⟨pre, hpre, hlog, hi⟩, ?_, ?_, ?_, fun h => nomatch h⟩
    · dsimp only
      have h2 : ((p₁ ++ (j, t) :: p₂) ++ comp).Perm (((j, t) :: (p₁ ++ p₂)) ++ comp) :=
        List.perm_middle.append_right comp
      have h3 : ((j, t) :: ((p₁ ++ p₂) ++ comp)).Perm (((p₁ ++ p₂) ++ comp) ++ [(j, t)]) :=
        (List.perm_append_singleton (j, t) ((p₁ ++ p₂) ++ comp)).symm
      have h5 : (((p₁ ++ p₂) ++ comp) ++ [(j, t)]).Perm ((p₁ ++ p₂) ++ (comp ++ [(j, t)])) := by
        rw [List.append_assoc]
      exact ((hperm.trans h2).trans h3).trans h5
    · dsimp only
      rw [List.any_append]
      cases hset : taskSetsStatus emptyfl t
      · simp only [hset, List.any_cons, List.any_nil, Bool.or_false, Bool.false_eq_true,
          if_false]
        simpa using hstatus
      · simp [hset, List.any_cons]
    · dsimp only
      rw [List.filterMap_append]
      cases hf : fileOf emptyfl (j, t) <;> simp [hf, hfiles, List.filterMap_cons]
  | @exit i comp log files st =>
    exact ⟨⟨pre, hpre, hlog, hi⟩, hperm, hstatus, hfiles, fun _ => ⟨rfl, rfl⟩⟩

theorem reachable_minv {emptyfl : Bool} {rs : List Result} {s : MState}
    (h : Reachable emptyfl rs s) : MInv emptyfl rs s := by
  induction h with
  | refl => exact minv_init emptyfl rs
  | tail _hsteps hstep ih => exact minv_step ih hstep

theorem reachable_exited_perm {emptyfl : Bool} {rs : List Result} {s : MState}
    (h : Reachable emptyfl rs s) (hex : s.exited = true) :
    s.pending = [] ∧ s.log.Perm s.comp := by
  have inv := reachable_minv h
  have hpend := (inv.exitedPending hex).2
  have hp := inv.perm
  rw [hpend] at hp
  simp only [List.nil_append] at hp
  exact ⟨hpend, hp⟩

/-- `C6`: The process never exits while a dispatched write task is still
outstanding: after the stream closes, the single `wg.Wait()` joins every
dispatched write task, and in any exited configuration the pending set is
empty and every logged dispatch has completed. -/
theorem completion_synchronizer_C6 (emptyfl : Bool) (rs : List Result) (s : MState)
    (h : Reachable emptyfl rs s) (hex : s.exited = true) :
    s.pending = [] ∧ s.log.Perm s.comp :=
  reachable_exited_perm h hex

/-- `C2`: For every stream of results, the consumer assigns file indices
starting at 1, incremented by exactly 1 for each Page in stream-arrival
order; an Error never consumes an index; for a stream with N Pages exactly
N dispatches happen, named `<pat>1.json` … `<pat>N.json`, in every
completed interleaving (independent of write-completion timing). -/
theorem consumer_indexing_C2 (emptyfl : Bool) (rs : List Result) (s : MState) (pat : String)
    (h : Reachable emptyfl rs s) (hex : s.exited = true) :
    s.log = (consumeFull rs 1).1 ∧
    s.log.map Prod.fst = List.range' 1 (countPages rs) ∧
    s.log.map Prod.snd = pagesOf rs ∧
    s.log.length = countPages rs ∧
    s.log.map (fun jt => fileNameFor pat jt.1) =
      (List.range' 1 (countPages rs)).map (fileNameFor pat) := by
  have inv := reachable_minv h
  obtain ⟨pre, hpre, hlog, _hi⟩ := inv.split
  have hrem := (inv.exitedPending hex).1
  rw [hrem, List.append_nil] at hpre
  subst hpre
  refine ⟨hlog, ?_, ?_, ?_, ?_⟩
  · rw [hlog, consumeFull_fst_map_fst]
  · rw [hlog, consumeFull_fst_map_snd]
  · rw [hlog, consumeFull_fst_length]
  · have hcomp : (fun jt : Nat × TaskSpec => fileNameFor pat jt.1) =
        fileNameFor pat ∘ Prod.fst := rfl
    rw [hlog, hcomp, ← List.map_map, consumeFull_fst_map_fst]

/-- `C1` (amended): in every completed run the exit status is `10` exactly
when some page's save failed after its file was created, and `0` otherwise
— in particular a failed `os.Create` does NOT flip the status; every
dispatched task completes, each successfully created file is present
regardless of other tasks' outcomes, and the write-failure code is
distinct from the other exit codes. -/
theorem exit_status_C1_amended (emptyfl : Bool) (rs : List Result) (s : MState)
    (h : Reachable emptyfl rs s) (hex : s.exited = true) :
    (s.statusCode =
      if s.log.any (fun jt => taskSetsStatus emptyfl jt.2) then exitCodeWrite else 0) ∧
    (∀ jt ∈ s.log, jt.2.createOk = true → (jt.1, fileContents emptyfl jt.2) ∈ s.files) ∧
    (∀ jt ∈ s.log, jt ∈ s.comp) ∧
    (exitCodeWrite ≠ 0 ∧ exitCodeWrite ≠ exitCodeArgs ∧ exitCodeWrite ≠ exitCodeQuery ∧
      exitCodeWrite ≠ exitCodeDir) := by
  have inv := reachable_minv h
  obtain ⟨hpend, hp⟩ := reachable_exited_perm h hex
  refine ⟨?_, ?_, ?_, by decide, by decide, by decide, by decide⟩
  · rw [inv.status, perm_any_eq _ hp]
  · intro jt hmem hcreate
    have hcomp : jt ∈ s.comp := hp.mem_iff.mp hmem
    rw [inv.filesEq]
    exact List.mem_filterMap.mpr ⟨jt, hcomp, by simp [fileOf, hcreate]⟩
  · intro jt hmem
    exact hp.mem_iff.mp hmem

/-! ## Concrete runs used by the witnesses and the counterexample -/

/-- A page whose write goroutine fully succeeds. -/
def exTaskA : TaskSpec := ⟨[], true, true⟩

def exStreamA : List Result := [.page exTaskA]

/-- The terminal state of the one-page fully-successful run. -/
def exFinalA : MState :=
  ⟨[], 2, [], [(1, exTaskA)], [(1, exTaskA)], [(1, some ['[', ']', '\n'])], 0, true⟩

theorem exReachA : Reachable false exStreamA exFinalA := by
  have h1 : Step false ⟨[Result.page exTaskA], 1, [], [], [], [], 0, false⟩
      ⟨[], 2, [] ++ [(1, exTaskA)], [], [] ++ [(1, exTaskA)], [], 0, false⟩ :=
    Step.consumePage
  have h2 : Step false ⟨[], 2, [] ++ (1, exTaskA) :: [], [], [(1, exTaskA)], [], 0, false⟩
      ⟨[], 2, [] ++ [], [] ++ [(1, exTaskA)], [(1, exTaskA)],
        [] ++ (fileOf false (1, exTaskA)).toList,
        if taskSetsStatus false exTaskA then exitCodeWrite else 0, false⟩ :=
    Step.complete
  have h3 : Step false ⟨[], 2, [], [(1, exTaskA)], [(1, exTaskA)],
      [(1, some ['[', ']', '\n'])], 0, false⟩ exFinalA := Step.exit
  exact Relation.ReflTransGen.tail (Relation.ReflTransGen.tail
    (Relation.ReflTransGen.tail Relation.ReflTransGen.refl h1) h2) h3

theorem completion_synchronizer_C6_witness :
    exFinalA.pending = [] ∧ exFinalA.log.Perm exFinalA.comp :=
  completion_synchronizer_C6 false exStreamA exFinalA exReachA rfl

theorem consumer_indexing_C2_witness :
    exFinalA.log.map Prod.fst = List.range' 1 (countPages exStreamA) ∧
    exFinalA.log.map Prod.snd = pagesOf exStreamA :=
  ⟨(consumer_indexing_C2 false exStreamA exFinalA "x" exReachA rfl).2.1,
   (consumer_indexing_C2 false exStreamA exFinalA "x" exReachA rfl).2.2.1⟩

theorem exit_status_C1_amended_witness :
    exFinalA.statusCode =
      (if exFinalA.log.any (fun jt => taskSetsStatus false jt.2) then exitCodeWrite
       else 0) :=
  (exit_status_C1_amended false exStreamA exFinalA exReachA rfl).1

/-- A page whose `os.Create` fails (e.g. destination unwritable). -/
def exTaskB : TaskSpec := ⟨[], false, true⟩

def exStreamB : List Result := [.page exTaskB]

/-- The terminal state of the run whose single write task failed to create
its file. -/
def exFinalB : MState := ⟨[], 2, [], [(1, exTaskB)], [(1, exTaskB)], [], 0, true⟩

theorem exReachB : Reachable false exStreamB exFinalB := by
  have h1 : Step false ⟨[Result.page exTaskB], 1, [], [], [], [], 0, false⟩
      ⟨[], 2, [] ++ [(1, exTaskB)], [], [] ++ [(1, exTaskB)], [], 0, false⟩ :=
    Step.consumePage
  have h2 : Step false ⟨[], 2, [] ++ (1, exTaskB) :: [], [], [(1, exTaskB)], [], 0, false⟩
      ⟨[], 2, [] ++ [], [] ++ [(1, exTaskB)], [(1, exTaskB)],
        [] ++ (fileOf false (1, exTaskB)).toList,
        if taskSetsStatus false exTaskB then exitCodeWrite else 0, false⟩ :=
    Step.complete
  have h3 : Step false ⟨[], 2, [], [(1, exTaskB)], [(1, exTaskB)], [], 0, false⟩
      exFinalB := Step.exit
  exact Relation.ReflTransGen.tail (Relation.ReflTransGen.tail
    (Relation.ReflTransGen.tail Relation.ReflTransGen.refl h1) h2) h3

/-- `C1` counterexample: a complete run in which the single page's write
task fails — `os.Create` fails, no file is produced — and yet the process
exits with status `0`, because the goroutine returns before
`statusCode = 10` (main.go:303-306).  The claim requires a nonzero exit
status whenever a write task fails, including failure to create the
destination file; the code does not deliver it. -/
theorem exit_status_C1_counterexample :
    Reachable false exStreamB exFinalB ∧
    exFinalB.exited = true ∧
    exFinalB.log = [(1, exTaskB)] ∧
    exTaskB.createOk = false ∧
    exFinalB.files = [] ∧
    exFinalB.statusCode = 0 :=
  ⟨exReachB, rfl, rfl, rfl, rfl, rfl⟩

/-- A page whose save fails after a successful create: its only document is
not a JSON object, so `rmVerField`'s unmarshal step fails. -/
def exTaskC : TaskSpec := ⟨[.jnum 1], true, true⟩

def exStreamC : List Result := [.page exTaskC, .page exTaskC]

/-- A mid-run state with two write goroutines in flight at once, both of
which will execute `statusCode = 10`. -/
def exPendC : MState :=
  ⟨[], 3, [(1, exTaskC), (2, exTaskC)], [], [(1, exTaskC), (2, exTaskC)], [], 0, false⟩

theorem exReachC : Reachable true exStreamC exPendC := by
  have h1 : Step true ⟨[Result.page exTaskC, Result.page exTaskC], 1, [], [], [], [], 0, false⟩
      ⟨[Result.page exTaskC], 2, [] ++ [(1, exTaskC)], [], [] ++ [(1, exTaskC)], [], 0, false⟩ :=
    Step.consumePage
  have h2 : Step true ⟨[Result.page exTaskC], 2, [(1, exTaskC)], [], [(1, exTaskC)], [], 0, false⟩
      ⟨[], 3, [(1, exTaskC)] ++ [(2, exTaskC)], [], [(1, exTaskC)] ++ [(2, exTaskC)], [],
        0, false⟩ :=
    Step.consumePage
  exact Relation.ReflTransGen.tail (Relation.ReflTransGen.tail
    Relation.ReflTransGen.refl h1) h2

/-- `C7`: the code evidence for the data race the spec flags.  A reachable
configuration holds two distinct in-flight write goroutines, each of whose
completion performs a plain assignment `statusCode = 10` (main.go:308) to
the one variable shared by all goroutines — `main` synchronizes them only
with `wg.Wait`, with no mutex, atomic, or channel guarding `statusCode`,
so these two writes are unsynchronized concurrent stores. -/
theorem status_race_C7 :
    Reachable true exStreamC exPendC ∧
    (1, exTaskC) ∈ exPendC.pending ∧
    (2, exTaskC) ∈ exPendC.pending ∧
    ((1, exTaskC) : Nat × TaskSpec) ≠ (2, exTaskC) ∧
    taskSetsStatus true exTaskC = true :=
  ⟨exReachC, by simp [exPendC], by simp [exPendC],
   fun h => absurd (congrArg Prod.fst h) (by decide), rfl⟩

/-! ## `parceArgs` credential resolution (main.go:108-128) -/

/-- Embeds the credential-resolution section of `parceArgs`: when the
`--user` flag is empty the code evaluates `os.Getenv(userEnv)` but DISCARDS
the result (main.go:109-111), and the `params` literal is then built from
the flag value alone (`user: *user`, main.go:123).  The function returns
the `user` field of the constructed `params`, given the flag value and the
value of the `SOLRUSER` environment variable. -/
def parceArgsUser (userFlag : String) (envUser : String) : String :=
  if userFlag = "" then
    let _ := envUser
    userFlag
  else userFlag

/-- Same for `--password` and `SOLRPASSW` (main.go:113-115, 124). -/
def parceArgsPassw (passwFlag : String) (envPassw : String) : String :=
  if passwFlag = "" then
    let _ := envPassw
    passwFlag
  else passwFlag

/-- `C8`: the code discards the environment credentials.  With the flags
omitted (empty) and `SOLRUSER=alice`, `SOLRPASSW=secret` set, the
constructed `params` still carries empty credentials — the claim that the
credentials are taken from the environment variables fails on this
input. -/
theorem env_credentials_discarded_C8 :
    parceArgsUser "" "alice" = "" ∧
    parceArgsPassw "" "secret" = "" ∧
    parceArgsUser "" "alice" ≠ "alice" ∧
    parceArgsPassw "" "secret" ≠ "secret" :=
  ⟨rfl, rfl, by decide, by decide⟩

/-! ## A JSON decoder (`json.Unmarshal` on a produced file, for C9)

The round-trip claim decodes a produced file back into documents and
re-encodes it.  `parseVal` is a standard recursive-descent JSON reader over
the file bytes; the `Nat` argument is fuel bounding the recursion depth
and is supplied from the input length at the top entry point. -/

/-- JSON insignificant whitespace. -/
def isWs (c : Char) : Bool := c = ' ' || c = '\n' || c = '\t' || c = '\r'

/-- Skip leading whitespace. -/
def skipWs : List Char → List Char
  | [] => []
  | c :: cs => if isWs c then skipWs cs else c :: cs

/-- Value of one hexadecimal digit character. -/
def hexVal (c : Char) : Option Nat :=
  if 48 ≤ c.toNat ∧ c.toNat ≤ 57 then some (c.toNat - 48)
  else if 97 ≤ c.toNat ∧ c.toNat ≤ 102 then some (c.toNat - 87)
  else if 65 ≤ c.toNat ∧ c.toNat ≤ 70 then some (c.toNat - 55)
  else none

/-- Read a string literal body after the opening quote: plain characters,
simple escapes, and `\uXXXX` (non-surrogate) escapes, up to the closing
quote.  Returns the decoded characters and the input after the quote. -/
def parseStringBody : List Char → Option (List Char × List Char)
  | [] => none
  | c :: cs =>
    if c = '"' then some ([], cs)
    else if c = '\\' then
      match cs with
      | [] => none
      | e :: cs2 =>
        if e = '"' then (parseStringBody cs2).map (fun p => ('"' :: p.1, p.2))
        else if e = '\\' then (parseStringBody cs2).map (fun p => ('\\' :: p.1, p.2))
        else if e = '/' then (parseStringBody cs2).map (fun p => ('/' :: p.1, p.2))
        else if e = 'n' then (parseStringBody cs2).map (fun p => ('\n' :: p.1, p.2))
        else if e = 'r' then (parseStringBody cs2).map (fun p => ('\r' :: p.1, p.2))
        else if e = 't' then (parseStringBody cs2).map (fun p => ('\t' :: p.1, p.2))
        else if e = 'b' then (parseStringBody cs2).map (fun p => (Char.ofNat 8 :: p.1, p.2))
        else if e = 'f' then (parseStringBody cs2).map (fun p => (Char.ofNat 12 :: p.1, p.2))
        else if e = 'u' then
          match cs2 with
          | h1 :: h2 :: h3 :: h4 :: cs3 =>
            match hexVal h1, hexVal h2, hexVal h3, hexVal h4 with
            | some a, some b, some c2, some d =>
              let n := ((a * 16 + b) * 16 + c2) * 16 + d
              if n < 55296 ∨ (57344 ≤ n ∧ n < 1114112) then
                (parseStringBody cs3).map (fun p => (Char.ofNat n :: p.1, p.2))
              else none
            | _, _, _, _ => none
          | _ => none
        else none
    else (parseStringBody cs).map (fun p => (c :: p.1, p.2))

/-- Accumulate a run of decimal digits, returning the value and the rest. -/
def parseDigits : List Char → Nat → Nat × List Char
  | [], acc => (acc, [])
  | c :: cs, acc =>
    if c.isDigit then parseDigits cs (acc * 10 + (c.toNat - 48))
    else (acc, c :: cs)

mutual

/-- Read one JSON value. -/
def parseVal : Nat → List Char → Option (JVal × List Char)
  | 0, _ => none
  | f + 1, cs =>
    match skipWs cs with
    | [] => none
    | c :: rest =>
      if c = '"' then
        match parseStringBody rest with
        | some (s, r) => some (.jstr (String.mk s), r)
        | none => none
      else if c = '[' then
        match skipWs rest with
        | [] => none
        | d :: r =>
          if d = ']' then some (.jarr [], r)
          else
            match parseElems f (d :: r) with
            | some (vs, r2) => some (.jarr vs, r2)
            | none => none
      else if c = '{' then
        match skipWs rest with
        | [] => none
        | d :: r =>
          if d = '}' then some (.jobj [], r)
          else
            match parseFields f (d :: r) with
            | some (fs, r2) => some (.jobj fs, r2)
            | none => none
      else if c = 't' then
        match rest with
        | 'r' :: 'u' :: 'e' :: r => some (.jbool true, r)
        | _ => none
      else if c = 'f' then
        match rest with
        | 'a' :: 'l' :: 's' :: 'e' :: r => some (.jbool false, r)
        | _ => none
      else if c = 'n' then
        match rest with
        | 'u' :: 'l' :: 'l' :: r => some (.jnull, r)
        | _ => none
      else if c = '-' then
        match rest with
        | [] => none
        | d :: r =>
          if d.isDigit then
            let p := parseDigits r (d.toNat - 48)
            some (.jnum (-(p.1 : Int)), p.2)
          else none
      else if c.isDigit then
        let p := parseDigits rest (c.toNat - 48)
        some (.jnum (p.1 : Int), p.2)
      else none

/-- Read the elements of a non-empty array, consuming the closing `]`. -/
def parseElems : Nat → List Char → Option (List JVal × List Char)
  | 0, _ => none
  | f + 1, cs =>
    match parseVal f cs with
    | none => none
    | some (v, rest) =>
      match skipWs rest with
      | [] => none
      | c :: r =>
        if c = ',' then
          match parseElems f r with
          | some (vs, r2) => some (v :: vs, r2)
          | none => none
        else if c = ']' then some ([v], r)
        else none

/-- Read the fields of a non-empty object, consuming the closing `}`. -/
def parseFields : Nat → List Char → Option (List (String × JVal) × List Char)
  | 0, _ => none
  | f + 1, cs =>
    match skipWs cs with
    | [] => none
    | c :: rest =>
      if c = '"' then
        match parseStringBody rest with
        | none => none
        | some (k, cs2) =>
          match skipWs cs2 with
          | [] => none
          | c2 :: cs3 =>
            if c2 = ':' then
              match parseVal f cs3 with
              | none => none
              | some (v, cs4) =>
                match skipWs cs4 with
                | [] => none
                | c3 :: cs5 =>
                  if c3 = ',' then
                    match parseFields f cs5 with
                    | some (fs2, r) => some ((String.mk k, v) :: fs2, r)
                    | none => none
                  else if c3 = '}' then some ([(String.mk k, v)], cs5)
                  else none
            else none
      else none

end

/-- `json.Unmarshal(data, &docs)` on a produced file: read the top-level
array, allow trailing whitespace (the final newline), and return the
decoded documents.  The fuel is computed from the input length. -/
def parseDocs (cs : List Char) : Option (List JVal) :=
  match parseVal (2 * cs.length + 2) cs with
  | some (.jarr ds, rest) =>
    match skipWs rest with
    | [] => some ds
    | _ => none
  | _ => none

/-! ## Round-trip support: digits -/

theorem skipWs_not_ws {c : Char} (cs : List Char) (h : isWs c = false) :
    skipWs (c :: cs) = c :: cs := by simp [skipWs, h]

theorem digitChar_props : ∀ d, d < 10 →
    (digitChar d).isDigit = true ∧ isWs (digitChar d) = false ∧
    (digitChar d).toNat - 48 = d ∧
    digitChar d ≠ '"' ∧ digitChar d ≠ '[' ∧ digitChar d ≠ '{' ∧
    digitChar d ≠ 't' ∧ digitChar d ≠ 'f' ∧ digitChar d ≠ 'n' ∧
    digitChar d ≠ '-' ∧ digitChar d ≠ ']' ∧ digitChar d ≠ '}' ∧
    digitChar d ≠ ',' := by decide

theorem natToDigits_lt10 {n : Nat} (h : n < 10) : natToDigits n = [digitChar n] := by
  simp [natToDigits, natToDigitsAux, h]

theorem natToDigits_ge10 {n : Nat} (h : ¬n < 10) :
    natToDigits n = natToDigits (n / 10) ++ [digitChar (n % 10)] := by
  have hdiv : n / 10 < n := Nat.div_lt_self (by omega) (by omega)
  show natToDigitsAux (n + 1) n = _
  simp only [natToDigitsAux, h, if_false]
  rw [natToDigitsAux_eq_natToDigits (n / 10) n (by omega)]

theorem natToDigits_shape :
    ∀ n, ∃ d t, d < 10 ∧ natToDigits n = digitChar d :: t ∧
      ∀ c ∈ t, ∃ e, e < 10 ∧ c = digitChar e := by
  intro n
  induction n using Nat.strong_induction_on with
  | _ n ih =>
    by_cases h10 : n < 10
    · exact ⟨n, [], h10, natToDigits_lt10 h10, by simp⟩
    · have hdiv : n / 10 < n := Nat.div_lt_self (by omega) (by omega)
      obtain ⟨d, t, hd, heq, hall⟩ := ih (n / 10) hdiv
      refine ⟨d, t ++ [digitChar (n % 10)], hd, ?_, ?_⟩
      · rw [natToDigits_ge10 h10, heq]
        rfl
      · intro c hc
        rcases List.mem_append.mp hc with hc | hc
        · exact hall c hc
        · refine ⟨n % 10, by omega, ?_⟩
          simpa using hc

/-- `true` when the input does not continue with another decimal digit —
the shape of every delimiter following a number in encoded JSON. -/
def noLeadDigit : List Char → Bool
  | [] => true
  | c :: _ => !c.isDigit

theorem parseDigits_stop (cs : List Char) (acc : Nat) (h : noLeadDigit cs = true) :
    parseDigits cs acc = (acc, cs) := by
  cases cs with
  | nil => rfl
  | cons c rest =>
    simp only [noLeadDigit, Bool.not_eq_true'] at h
    simp [parseDigits, h]

theorem parseDigits_run (cs : List Char) (rest : List Char) (acc : Nat)
    (hall : ∀ c ∈ cs, c.isDigit = true) (hrest : noLeadDigit rest = true) :
    parseDigits (cs ++ rest) acc =
      (cs.foldl (fun a c => a * 10 + (c.toNat - 48)) acc, rest) := by
  induction cs generalizing acc with
  | nil => simpa using parseDigits_stop rest acc hrest
  | cons c cs ih =>
    have hc : c.isDigit = true := hall c (by simp)
    simp only [List.cons_append, parseDigits, hc, if_true, List.foldl_cons]
    exact ih _ (fun x hx => hall x (List.mem_cons_of_mem c hx))

theorem natToDigits_foldl (n : Nat) : ∀ acc,
    (natToDigits n).foldl (fun a c => a * 10 + (c.toNat - 48)) acc =
      acc * 10 ^ (natToDigits n).length + n := by
  induction n using Nat.strong_induction_on with
  | _ n ih =>
    intro acc
    by_cases h10 : n < 10
    · rw [natToDigits_lt10 h10]
      simp [List.foldl_cons, (digitChar_props n h10).2.2.1]
    · have hdiv : n / 10 < n := Nat.div_lt_self (by omega) (by omega)
      rw [natToDigits_ge10 h10, List.foldl_append, List.length_append]
      rw [ih (n / 10) hdiv acc]
      simp only [List.foldl_cons, List.foldl_nil, List.length_cons, List.length_nil]
      rw [(digitChar_props (n % 10) (by omega)).2.2.1]
      have hmod : 10 * (n / 10) + n % 10 = n := Nat.div_add_mod n 10
      have hpow : 10 ^ ((natToDigits (n / 10)).length + (0 + 1)) =
          10 ^ (natToDigits (n / 10)).length * 10 := by
        rw [Nat.add_comm 0 1, pow_succ]
      rw [hpow]
      ring_nf
      omega

theorem parseDigits_spec (n : Nat) (rest : List Char) (hrest : noLeadDigit rest = true) :
    ∃ d t, d < 10 ∧ natToDigits n = digitChar d :: t ∧
      parseDigits (t ++ rest) ((digitChar d).toNat - 48) = (n, rest) := by
  obtain ⟨d, t, hd, heq, hall⟩ := natToDigits_shape n
  refine ⟨d, t, hd, heq, ?_⟩
  have hta : ∀ c ∈ t, c.isDigit = true := by
    intro c hc
    obtain ⟨e, he, rfl⟩ := hall c hc
    exact (digitChar_props e he).1
  rw [parseDigits_run t rest _ hta hrest]
  have h0 : (natToDigits n).foldl (fun a c => a * 10 + (c.toNat - 48)) 0 = n := by
    rw [natToDigits_foldl]
    simp
  rw [heq, List.foldl_cons] at h0
  rw [(digitChar_props d hd).2.2.1] at h0 ⊢
  simpa using h0

/-! ## Round-trip support: strings -/

theorem hexVal_hexDigit : ∀ d, d < 16 → hexVal (hexDigit d) = some d := by decide

theorem parseStringBody_escList (s : List Char) (rest : List Char) :
    parseStringBody (escList s ++ ('"' :: rest)) = some (s, rest) := by
  induction s with
  | nil =>
    show parseStringBody ('"' :: rest) = some ([], rest)
    unfold parseStringBody
    simp
  | cons c cs ih =>
    show parseStringBody ((escapeChar c ++ escList cs) ++ ('"' :: rest)) = _
    rw [List.append_assoc]
    by_cases h1 : c = '"'
    · subst h1
      rw [show escapeChar '"' = ['\\', '"'] from rfl]
      unfold parseStringBody
      simp [ih]
    by_cases h2 : c = '\\'
    · subst h2
      rw [show escapeChar '\\' = ['\\', '\\'] from rfl]
      unfold parseStringBody
      simp [ih]
    by_cases h3 : c = '\n'
    · subst h3
      rw [show escapeChar '\n' = ['\\', 'n'] from rfl]
      unfold parseStringBody
      simp [ih]
    by_cases h4 : c = '\r'
    · subst h4
      rw [show escapeChar '\r' = ['\\', 'r'] from rfl]
      unfold parseStringBody
      simp [ih]
    by_cases h5 : c = '\t'
    · subst h5
      rw [show escapeChar '\t' = ['\\', 't'] from rfl]
      unfold parseStringBody
      simp [ih]
    by_cases h6 : c.toNat < 32
    · have hesc : escapeChar c =
          ['\\', 'u', '0', '0', hexDigit (c.toNat / 16), hexDigit (c.toNat % 16)] := by
        simp [escapeChar, h1, h2, h3, h4, h5, h6]
      rw [hesc]
      have hx1 := hexVal_hexDigit (c.toNat / 16) (by omega)
      have hx2 := hexVal_hexDigit (c.toNat % 16) (by omega)
      unfold parseStringBody
      simp only [List.cons_append, List.nil_append]
      simp [hx1, hx2, show hexVal '0' = some 0 from rfl]
      refine ⟨Or.inl (by omega), ih, ?_⟩
      have hv : c.toNat / 16 * 16 + c.toNat % 16 = c.toNat := by omega
      rw [hv, Char.ofNat_toNat]
    by_cases h7 : c = '<'
    · subst h7
      have hesc : escapeChar '<' = ['\\', 'u', '0', '0', '3', 'c'] := by
        simp [escapeChar, h6]
      rw [hesc]
      unfold parseStringBody
      simp [show hexVal '0' = some 0 from rfl, show hexVal '3' = some 3 from rfl,
        show hexVal 'c' = some 12 from rfl, ih]
    by_cases h8 : c = '>'
    · subst h8
      have hesc : escapeChar '>' = ['\\', 'u', '0', '0', '3', 'e'] := by
        simp [escapeChar, h6]
      rw [hesc]
      unfold parseStringBody
      simp [show hexVal '0' = some 0 from rfl, show hexVal '3' = some 3 from rfl,
        show hexVal 'e' = some 14 from rfl, ih]
    by_cases h9 : c = '&'
    · subst h9
      have hesc : escapeChar '&' = ['\\', 'u', '0', '0', '2', '6'] := by
        simp [escapeChar, h6]
      rw [hesc]
      unfold parseStringBody
      simp [show hexVal '0' = some 0 from rfl, show hexVal '2' = some 2 from rfl,
        show hexVal '6' = some 6 from rfl, ih]
    by_cases h10 : c.toNat = 0x2028
    · have hc : Char.ofNat 0x2028 = c := by
        rw [← h10, Char.ofNat_toNat]
      have hesc : escapeChar c = ['\\', 'u', '2', '0', '2', '8'] := by
        simp [escapeChar, h1, h2, h3, h4, h5, h6, h7, h8, h9, h10]
      rw [hesc]
      unfold parseStringBody
      simp [show hexVal '0' = some 0 from rfl, show hexVal '2' = some 2 from rfl,
        show hexVal '8' = some 8 from rfl, ih]
      exact hc
    by_cases h11 : c.toNat = 0x2029
    · have hc : Char.ofNat 0x2029 = c := by
        rw [← h11, Char.ofNat_toNat]
      have hesc : escapeChar c = ['\\', 'u', '2', '0', '2', '9'] := by
        simp [escapeChar, h1, h2, h3, h4, h5, h6, h7, h8, h9, h10, h11]
      rw [hesc]
      unfold parseStringBody
      simp [show hexVal '0' = some 0 from rfl, show hexVal '2' = some 2 from rfl,
        show hexVal '9' = some 9 from rfl, ih]
      exact hc
    · have hesc : escapeChar c = [c] := by
        simp [escapeChar, h1, h2, h3, h4, h5, h6, h7, h8, h9, h10, h11]
      rw [hesc]
      unfold parseStringBody
      simp [h1, h2, ih]

/-! ## Round-trip support: sizes and head shapes -/

mutual

/-- Node-count measure of a value, used to bound the parser fuel. -/
def jsize : JVal → Nat
  | .jnull => 1
  | .jbool _ => 1
  | .jnum _ => 1
  | .jstr _ => 1
  | .jarr xs => 1 + jsizeL xs
  | .jobj fs => 1 + jsizeF fs
termination_by structural v => v

/-- Measure of an element list: one unit per separator plus the elements. -/
def jsizeL : List JVal → Nat
  | [] => 0
  | x :: xs => jsize x + 1 + jsizeL xs
termination_by structural xs => xs

/-- Measure of a field list. -/
def jsizeF : List (String × JVal) → Nat
  | [] => 0
  | (_, v) :: fs => jsize v + 1 + jsizeF fs
termination_by structural fs => fs

end

theorem jsize_pos (v : JVal) : 1 ≤ jsize v := by
  cases v <;> simp [jsize]

theorem noLeadDigit_cons (c : Char) (l : List Char) (h : c.isDigit = false) :
    noLeadDigit (c :: l) = true := by simp [noLeadDigit, h]

/-- The first character of any encoded value is never whitespace and never a
closing delimiter, so the parser's dispatch sees it unchanged. -/
theorem encL_shape (v : JVal) :
    ∃ c t, encL v = c :: t ∧ isWs c = false ∧ c ≠ ']' ∧ c ≠ '}' := by
  cases v with
  | jnull => refine ⟨'n', _, rfl, ?_, ?_, ?_⟩ <;> decide
  | jbool b =>
    rcases b with _ | _
    · refine ⟨'f', _, rfl, ?_, ?_, ?_⟩ <;> decide
    · refine ⟨'t', _, rfl, ?_, ?_, ?_⟩ <;> decide
  | jnum i =>
    by_cases hneg : i < 0
    · refine ⟨'-', natToDigits i.natAbs, by simp [encL, intEnc, hneg], ?_, ?_, ?_⟩ <;> decide
    · obtain ⟨d, t, hd, heq, _⟩ := natToDigits_shape i.toNat
      refine ⟨digitChar d, t, ?_, (digitChar_props d hd).2.1, ?_, ?_⟩
      · simp [encL, intEnc, hneg, heq]
      · exact (digitChar_props d hd).2.2.2.2.2.2.2.2.2.2.1
      · exact (digitChar_props d hd).2.2.2.2.2.2.2.2.2.2.2.1
  | jstr s => refine ⟨'"', _, rfl, ?_, ?_, ?_⟩ <;> decide
  | jarr xs => refine ⟨'[', _, rfl, ?_, ?_, ?_⟩ <;> decide
  | jobj fs => refine ⟨'{', _, rfl, ?_, ?_, ?_⟩ <;> decide

set_option maxHeartbeats 1000000 in
theorem parse_encL : ∀ k,
    (∀ v, jsize v ≤ k → ∀ f, jsize v ≤ f → ∀ rest, noLeadDigit rest = true →
      parseVal f (encL v ++ rest) = some (v, rest)) ∧
    (∀ xs, xs ≠ [] → jsizeL xs ≤ k → ∀ f, jsizeL xs ≤ f → ∀ rest, noLeadDigit rest = true →
      parseElems f (encElems xs ++ (']' :: rest)) = some (xs, rest)) ∧
    (∀ fs, fs ≠ [] → jsizeF fs ≤ k → ∀ f, jsizeF fs ≤ f → ∀ rest, noLeadDigit rest = true →
      parseFields f (encFields fs ++ ('}' :: rest)) = some (fs, rest)) := by
  intro k
  induction k using Nat.strong_induction_on with
  | _ k ih =>
    refine ⟨?_, ?_, ?_⟩
    · intro v hk f hf rest hrest
      have h1 := jsize_pos v
      cases f with
      | zero => omega
      | succ f =>
        cases v with
        | jnull =>
          rw [show encL .jnull ++ rest = 'n' :: 'u' :: 'l' :: 'l' :: rest from rfl]
          unfold parseVal
          rw [skipWs_not_ws _ (by decide)]
          simp
        | jbool b =>
          cases b with
          | true =>
            rw [show encL (.jbool true) ++ rest = 't' :: 'r' :: 'u' :: 'e' :: rest from rfl]
            unfold parseVal
            rw [skipWs_not_ws _ (by decide)]
            simp
          | false =>
            rw [show encL (.jbool false) ++ rest =
              'f' :: 'a' :: 'l' :: 's' :: 'e' :: rest from rfl]
            unfold parseVal
            rw [skipWs_not_ws _ (by decide)]
            simp
        | jnum i =>
          by_cases hneg : i < 0
          · obtain ⟨d, t, hd, heq, hpd⟩ := parseDigits_spec i.natAbs rest hrest
            have henc : encL (.jnum i) ++ rest = '-' :: (digitChar d :: (t ++ rest)) := by
              simp [encL, intEnc, hneg, heq]
            rw [henc]
            unfold parseVal
            rw [skipWs_not_ws _ (by decide)]
            simp [(digitChar_props d hd).1, hpd]
            rw [abs_of_neg hneg, neg_neg]
          · obtain ⟨d, t, hd, heq, hpd⟩ := parseDigits_spec i.toNat rest hrest
            have henc : encL (.jnum i) ++ rest = digitChar d :: (t ++ rest) := by
              simp [encL, intEnc, hneg, heq]
            rw [henc]
            unfold parseVal
            rw [skipWs_not_ws _ (digitChar_props d hd).2.1]
            have hival : ((i.toNat : Int)) = i := by omega
            simp [(digitChar_props d hd).1, (digitChar_props d hd).2.2.2.1,
              (digitChar_props d hd).2.2.2.2.1, (digitChar_props d hd).2.2.2.2.2.1,
              (digitChar_props d hd).2.2.2.2.2.2.1, (digitChar_props d hd).2.2.2.2.2.2.2.1,
              (digitChar_props d hd).2.2.2.2.2.2.2.2.1,
              (digitChar_props d hd).2.2.2.2.2.2.2.2.2.1, hpd, hival]
        | jstr s =>
          have henc : encL (.jstr s) ++ rest = '"' :: (escList s.data ++ ('"' :: rest)) := by
            simp [encL]
          rw [henc]
          unfold parseVal
          rw [skipWs_not_ws _ (by decide)]
          simp [parseStringBody_escList]
        | jarr xs =>
          cases xs with
          | nil =>
            rw [show encL (.jarr []) ++ rest = '[' :: (']' :: rest) from rfl]
            unfold parseVal
            rw [skipWs_not_ws _ (by decide)]
            simp [skipWs, isWs]
          | cons x xs2 =>
            obtain ⟨c, t, hct, hws, hbr, _⟩ := encL_shape x
            have hsplit : encL (.jarr (x :: xs2)) ++ rest =
                '[' :: (c :: (t ++ (encElemsTail xs2 ++ (']' :: rest)))) := by
              simp [encL, encElems, hct, List.append_assoc]
            rw [hsplit]
            unfold parseVal
            rw [skipWs_not_ws _ (by decide)]
            have hback : c :: (t ++ (encElemsTail xs2 ++ (']' :: rest))) =
                encElems (x :: xs2) ++ (']' :: rest) := by
              simp [encElems, hct, List.append_assoc]
            have hkx : jsizeL (x :: xs2) ≤ k - 1 := by
              simp only [jsize] at hk
              omega
            have hfx : jsizeL (x :: xs2) ≤ f := by
              simp only [jsize] at hf
              omega
            have hklt : k - 1 < k := by
              have := jsize_pos (.jarr (x :: xs2))
              omega
            have hpe := (ih (k - 1) hklt).2.1 (x :: xs2) (by simp) hkx f hfx rest hrest
            simp [skipWs, hws, hbr]
            rw [hback, hpe]
        | jobj fs =>
          cases fs with
          | nil =>
            rw [show encL (.jobj []) ++ rest = '{' :: ('}' :: rest) from rfl]
            unfold parseVal
            rw [skipWs_not_ws _ (by decide)]
            simp [skipWs, isWs]
          | cons kv fs2 =>
            obtain ⟨kk, v⟩ := kv
            have hsplit : encL (.jobj ((kk, v) :: fs2)) ++ rest =
                '{' :: ('"' :: (escList kk.data ++
                  ('"' :: (':' :: (encL v ++ (encFieldsTail fs2 ++ ('}' :: rest))))))) := by
              simp [encL, encFields, List.append_assoc]
            rw [hsplit]
            unfold parseVal
            rw [skipWs_not_ws _ (by decide)]
            have hback : ('"' :: (escList kk.data ++
                  ('"' :: (':' :: (encL v ++ (encFieldsTail fs2 ++ ('}' :: rest))))))) =
                encFields ((kk, v) :: fs2) ++ ('}' :: rest) := by
              simp [encFields, List.append_assoc]
            have hkx : jsizeF ((kk, v) :: fs2) ≤ k - 1 := by
              simp only [jsize] at hk
              omega
            have hfx : jsizeF ((kk, v) :: fs2) ≤ f := by
              simp only [jsize] at hf
              omega
            have hklt : k - 1 < k := by
              have := jsize_pos (.jobj ((kk, v) :: fs2))
              omega
            have hpf := (ih (k - 1) hklt).2.2 ((kk, v) :: fs2) (by simp) hkx f hfx rest hrest
            simp [skipWs, isWs]
            rw [hback, hpf]
    · intro xs hne hk f hf rest hrest
      cases xs with
      | nil => exact absurd rfl hne
      | cons x xs2 =>
        have hx1 := jsize_pos x
        cases f with
        | zero =>
          simp only [jsizeL] at hf
          omega
        | succ f =>
          have hsplit : encElems (x :: xs2) ++ (']' :: rest) =
              encL x ++ (encElemsTail xs2 ++ (']' :: rest)) := by
            simp [encElems, List.append_assoc]
          rw [hsplit]
          unfold parseElems
          have hdelim : noLeadDigit (encElemsTail xs2 ++ (']' :: rest)) = true := by
            cases xs2 with
            | nil => simp [encElemsTail, noLeadDigit]
            | cons y ys => simp [encElemsTail, noLeadDigit]
          have hklt : k - 1 < k := by
            simp only [jsizeL] at hk
            omega
          have hv := (ih (k - 1) hklt).1 x
            (by simp only [jsizeL] at hk; omega) f
            (by simp only [jsizeL] at hf; omega) _ hdelim
          rw [hv]
          cases xs2 with
          | nil =>
            simp only [encElemsTail, List.nil_append]
            rw [skipWs_not_ws _ (by decide)]
            simp
          | cons y ys =>
            simp only [encElemsTail, List.cons_append]
            rw [skipWs_not_ws _ (by decide)]
            have hback : (encL y ++ encElemsTail ys) ++ (']' :: rest) =
                encElems (y :: ys) ++ (']' :: rest) := by
              simp [encElems, List.append_assoc]
            have hys := (ih (k - 1) hklt).2.1 (y :: ys) (by simp)
              (by simp only [jsizeL] at hk ⊢; omega) f
              (by simp only [jsizeL] at hf ⊢; omega) rest hrest
            simp only [List.append_assoc] at hback ⊢
            simp [hback, hys]
    · intro fs hne hk f hf rest hrest
      cases fs with
      | nil => exact absurd rfl hne
      | cons kv fs2 =>
        obtain ⟨kk, v⟩ := kv
        have hv1 := jsize_pos v
        cases f with
        | zero =>
          simp only [jsizeF] at hf
          omega
        | succ f =>
          have hsplit : encFields ((kk, v) :: fs2) ++ ('}' :: rest) =
              '"' :: (escList kk.data ++
                ('"' :: (':' :: (encL v ++ (encFieldsTail fs2 ++ ('}' :: rest)))))) := by
            simp [encFields, List.append_assoc]
          rw [hsplit]
          unfold parseFields
          rw [skipWs_not_ws _ (by decide)]
          have hdelim : noLeadDigit (encFieldsTail fs2 ++ ('}' :: rest)) = true := by
            cases fs2 with
            | nil => simp [encFieldsTail, noLeadDigit]
            | cons g gs =>
              obtain ⟨gk, gv⟩ := g
              simp [encFieldsTail, noLeadDigit]
          have hklt : k - 1 < k := by
            simp only [jsizeF] at hk
            omega
          have hv2 := (ih (k - 1) hklt).1 v
            (by simp only [jsizeF] at hk; omega) f
            (by simp only [jsizeF] at hf; omega) _ hdelim
          have hstr := parseStringBody_escList kk.data
            (':' :: (encL v ++ (encFieldsTail fs2 ++ ('}' :: rest))))
          cases fs2 with
          | nil =>
            have htail : encFieldsTail ([] : List (String × JVal)) ++ ('}' :: rest) =
                '}' :: rest := by
              simp [encFieldsTail]
            rw [htail] at hstr hv2 ⊢
            simp [hstr, skipWs, isWs, hv2]
          | cons g gs =>
            obtain ⟨gk, gv⟩ := g
            have htail : encFieldsTail ((gk, gv) :: gs) ++ ('}' :: rest) =
                ',' :: (encFields ((gk, gv) :: gs) ++ ('}' :: rest)) := by
              simp [encFieldsTail, encFields, List.append_assoc]
            have hgs := (ih (k - 1) hklt).2.2 ((gk, gv) :: gs) (by simp)
              (by simp only [jsizeF] at hk ⊢; omega) f
              (by simp only [jsizeF] at hf ⊢; omega) rest hrest
            rw [htail] at hstr hv2 ⊢
            simp [hstr, skipWs, isWs, hv2, hgs]

theorem encL_length_pos (v : JVal) : 1 ≤ (encL v).length := by
  obtain ⟨c, t, hct, _⟩ := encL_shape v
  simp [hct]

theorem enc_size_bound : ∀ k,
    (∀ v, jsize v ≤ k → jsize v ≤ 2 * (encL v).length) ∧
    (∀ xs, jsizeL xs ≤ k → jsizeL xs ≤ 2 * (encElemsTail xs).length) ∧
    (∀ fs, jsizeF fs ≤ k → jsizeF fs ≤ 2 * (encFieldsTail fs).length) := by
  intro k
  induction k using Nat.strong_induction_on with
  | _ k ih =>
    refine ⟨?_, ?_, ?_⟩
    · intro v hk
      cases v with
      | jnull => simp [jsize, encL]
      | jbool b => cases b <;> simp [jsize, encL]
      | jnum i =>
        have hpos := encL_length_pos (.jnum i)
        simp only [jsize]
        omega
      | jstr s =>
        simp only [jsize, encL, List.length_cons, List.length_append]
        omega
      | jarr xs =>
        cases xs with
        | nil => simp [jsize, jsizeL, encL, encElems]
        | cons x xs2 =>
          have hx1 := jsize_pos x
          have hklt : k - 1 < k := by
            simp only [jsize, jsizeL] at hk
            omega
          have hx := (ih (k - 1) hklt).1 x (by simp only [jsize, jsizeL] at hk; omega)
          have hxs := (ih (k - 1) hklt).2.1 xs2 (by simp only [jsize, jsizeL] at hk; omega)
          simp only [jsize, jsizeL, encL, encElems, List.length_cons, List.length_append] at *
          omega
      | jobj fs =>
        cases fs with
        | nil => simp [jsize, jsizeF, encL, encFields]
        | cons kv fs2 =>
          obtain ⟨kk, v⟩ := kv
          have hv1 := jsize_pos v
          have hklt : k - 1 < k := by
            simp only [jsize, jsizeF] at hk
            omega
          have hv := (ih (k - 1) hklt).1 v (by simp only [jsize, jsizeF] at hk; omega)
          have hfs := (ih (k - 1) hklt).2.2 fs2 (by simp only [jsize, jsizeF] at hk; omega)
          simp only [jsize, jsizeF, encL, encFields, List.length_cons, List.length_append] at *
          omega
    · intro xs hk
      cases xs with
      | nil => simp [jsizeL, encElemsTail]
      | cons y ys =>
        have hy1 := jsize_pos y
        have hklt : k - 1 < k := by
          simp only [jsizeL] at hk
          omega
        have hy := (ih (k - 1) hklt).1 y (by simp only [jsizeL] at hk; omega)
        have hys := (ih (k - 1) hklt).2.1 ys (by simp only [jsizeL] at hk; omega)
        simp only [jsizeL, encElemsTail, List.length_cons, List.length_append] at *
        omega
    · intro fs hk
      cases fs with
      | nil => simp [jsizeF, encFieldsTail]
      | cons kv fs2 =>
        obtain ⟨kk, v⟩ := kv
        have hv1 := jsize_pos v
        have hklt : k - 1 < k := by
          simp only [jsizeF] at hk
          omega
        have hv := (ih (k - 1) hklt).1 v (by simp only [jsizeF] at hk; omega)
        have hfs := (ih (k - 1) hklt).2.2 fs2 (by simp only [jsizeF] at hk; omega)
        simp only [jsizeF, encFieldsTail, List.length_cons, List.length_append] at *
        omega

/-- `C9`: Round-trip — a file produced with stripping disabled is
`json.Marshal` of the documents plus a newline; decoding it back into
documents succeeds and returns exactly the original document sequence, so
re-encoding it (stripping still disabled, same order) yields a
byte-identical JSON array. -/
theorem roundtrip_C9 (ds : List JVal) :
    saveSolrResp false ds = some (encL (.jarr ds) ++ ['\n']) ∧
    parseDocs (encL (.jarr ds) ++ ['\n']) = some ds ∧
    (parseDocs (encL (.jarr ds) ++ ['\n'])).map (fun ds2 => encL (.jarr ds2)) =
      some (encL (.jarr ds)) := by
  have hsize : jsize (.jarr ds) ≤ 2 * (encL (.jarr ds)).length :=
    (enc_size_bound (jsize (.jarr ds))).1 _ le_rfl
  have hfuel : jsize (.jarr ds) ≤ 2 * (encL (.jarr ds) ++ ['\n']).length + 2 := by
    simp only [List.length_append, List.length_cons, List.length_nil] at *
    omega
  have hpv := (parse_encL (jsize (.jarr ds))).1 (.jarr ds) le_rfl
    (2 * (encL (.jarr ds) ++ ['\n']).length + 2) hfuel ['\n'] (by decide)
  have hpd : parseDocs (encL (.jarr ds) ++ ['\n']) = some ds := by
    unfold parseDocs
    rw [hpv]
    simp [skipWs, isWs]
  exact ⟨rfl, hpd, by rw [hpd]; rfl⟩

/-! ## The stripping path re-codes values through `interface{}` (C3)

`rmVerField` decodes each document into `map[string]interface{}`, so a
field's value only survives unchanged when the `interface{}` re-coding
`goValue` fixes it: every number must fit the 53-bit binary64 significand
and every nested object must already be in Go-map canonical form (sorted
distinct keys).  `f64id` decides that condition; `9007199254740993 = 2^53
+ 1` fails it and comes out as `9007199254740992`. -/

/-- Keys strictly sorted in Go's marshal order, hence pairwise distinct:
the shape `canonMap` produces and fixes. -/
def keysStrictSorted : List (String × JVal) → Bool
  | [] => true
  | (k, _) :: rest => rest.all (fun kv => strLt k kv.1) && keysStrictSorted rest

mutual

/-- The values on which the `interface{}` re-coding is the identity: all
numbers of magnitude at most 2^53 (exactly representable in binary64) and
all nested objects already in Go-map canonical form. -/
def f64id : JVal → Bool
  | .jnull => true
  | .jbool _ => true
  | .jnum n => decide (n.natAbs ≤ 2 ^ 53)
  | .jstr _ => true
  | .jarr xs => f64idL xs
  | .jobj fs => keysStrictSorted fs && f64idF fs
termination_by structural v => v

/-- `f64id` for every element of an array. -/
def f64idL : List JVal → Bool
  | [] => true
  | x :: xs => f64id x && f64idL xs
termination_by structural xs => xs

/-- `f64id` for every field value of an object. -/
def f64idF : List (String × JVal) → Bool
  | [] => true
  | (_, v) :: fs => f64id v && f64idF fs
termination_by structural fs => fs

end

theorem listLtChars_irrefl : ∀ l : List Char, listLtChars l l = false := by
  intro l
  induction l with
  | nil => rfl
  | cons c cs ih => simp [listLtChars, ih]

theorem listLtChars_asymm :
    ∀ a b : List Char, listLtChars a b = true → listLtChars b a = false := by
  intro a
  induction a with
  | nil =>
    intro b h
    cases b with
    | nil => simp [listLtChars] at h
    | cons d ds => simp [listLtChars]
  | cons c cs ih =>
    intro b h
    cases b with
    | nil => simp [listLtChars] at h
    | cons d ds =>
      by_cases hcd : c.toNat < d.toNat
      · have hdc : ¬d.toNat < c.toNat := by omega
        simp [listLtChars, hcd, hdc]
      · by_cases hdc : d.toNat < c.toNat
        · simp [listLtChars, hcd, hdc] at h
        · simp only [listLtChars, if_neg hcd, if_neg hdc] at h
          simp [listLtChars, hcd, hdc, ih ds h]

theorem strLt_irrefl (a : String) : strLt a a = false :=
  listLtChars_irrefl a.data

theorem strLt_asymm (a b : String) (h : strLt a b = true) : strLt b a = false :=
  listLtChars_asymm a.data b.data h

theorem strLt_ne (a b : String) (h : strLt a b = true) : a ≠ b := by
  intro heq
  subst heq
  simp [strLt_irrefl a] at h

/-- Inserting a key above every key already present appends at the end. -/
theorem mapInsert_append_of_all_lt (m : List (String × JVal)) (k : String)
    (v : JVal) (h : ∀ kv ∈ m, strLt kv.1 k = true) :
    mapInsert m k v = m ++ [(k, v)] := by
  induction m with
  | nil => rfl
  | cons kv rest ih =>
    obtain ⟨k', v'⟩ := kv
    have hlt : strLt k' k = true := h (k', v') (List.mem_cons_self _ _)
    have hne : ¬k = k' := fun heq => strLt_ne k' k hlt heq.symm
    have hflt : strLt k k' = false := strLt_asymm k' k hlt
    have ihr := ih (fun kv hkv => h kv (List.mem_cons_of_mem _ hkv))
    simp [mapInsert, hne, hflt, ihr]

/-- Folding `mapInsert` over keys sorted strictly above everything in the
accumulator just appends the bindings in order. -/
theorem canonFold_sorted :
    ∀ (fs m : List (String × JVal)),
      (∀ kv ∈ m, ∀ kv2 ∈ fs, strLt kv.1 kv2.1 = true) →
      keysStrictSorted fs = true →
      fs.foldl (fun m kv => mapInsert m kv.1 kv.2) m = m ++ fs := by
  intro fs
  induction fs with
  | nil =>
    intro m _ _
    simp
  | cons kv rest ih =>
    obtain ⟨k, v⟩ := kv
    intro m hm hfs
    simp only [keysStrictSorted, Bool.and_eq_true, List.all_eq_true] at hfs
    rw [List.foldl_cons]
    rw [mapInsert_append_of_all_lt m k v
      (fun kv2 hkv2 => hm kv2 hkv2 (k, v) (List.mem_cons_self _ _))]
    have hm2 : ∀ kv2 ∈ m ++ [(k, v)], ∀ kv3 ∈ rest, strLt kv2.1 kv3.1 = true := by
      intro kv2 hkv2 kv3 hkv3
      rcases List.mem_append.mp hkv2 with hkv2m | hkv2s
      · exact hm kv2 hkv2m kv3 (List.mem_cons_of_mem _ hkv3)
      · have hkv2e : kv2 = (k, v) := by simpa using hkv2s
        subst hkv2e
        exact hfs.1 kv3 hkv3
    rw [ih (m ++ [(k, v)]) hm2 hfs.2]
    simp

/-- `canonMap` fixes lists already in Go-map canonical form. -/
theorem canonMap_sorted_id (fs : List (String × JVal))
    (hfs : keysStrictSorted fs = true) : canonMap fs = fs := by
  unfold canonMap
  rw [canonFold_sorted fs [] (fun kv hkv => by simp at hkv) hfs]
  simp

theorem goFieldsConv_map_fst (fs : List (String × JVal)) :
    (goFieldsConv fs).map Prod.fst = fs.map Prod.fst := by
  induction fs with
  | nil => rfl
  | cons kv rest ih =>
    obtain ⟨k, v⟩ := kv
    simp [goFieldsConv, ih]

/-- Converting field values commutes with field lookup. -/
theorem lookupField_goFieldsConv (fs : List (String × JVal)) (k : String) :
    lookupField (goFieldsConv fs) k = (lookupField fs k).map goValue := by
  induction fs with
  | nil => rfl
  | cons kv rest ih =>
    obtain ⟨k₀, v₀⟩ := kv
    by_cases hk : k = k₀ <;> simp [goFieldsConv, lookupField, hk, ih]

theorem goValue_id_bundle : ∀ k,
    (∀ v, jsize v ≤ k → f64id v = true → goValue v = v) ∧
    (∀ xs, jsizeL xs ≤ k → f64idL xs = true → goValueL xs = xs) ∧
    (∀ fs, jsizeF fs ≤ k → f64idF fs = true → goFieldsConv fs = fs) := by
  intro k
  induction k using Nat.strong_induction_on with
  | _ k ih =>
    refine ⟨?_, ?_, ?_⟩
    · intro v hk hid
      cases v with
      | jnull => rfl
      | jbool b => rfl
      | jnum n =>
        simp only [f64id, decide_eq_true_eq] at hid
        simp [goValue, roundToF64, hid]
        intro hcon
        exfalso
        have h2 : (2 : ℕ) ^ 53 = 9007199254740992 := by norm_num
        rw [h2] at hid
        omega
      | jstr s => rfl
      | jarr xs =>
        have hklt : k - 1 < k := by
          have h1 := jsize_pos (.jarr xs)
          omega
        simp only [f64id] at hid
        have hxs := (ih (k - 1) hklt).2.1 xs
          (by simp only [jsize] at hk; omega) hid
        simp [goValue, hxs]
      | jobj fs =>
        have hklt : k - 1 < k := by
          have h1 := jsize_pos (.jobj fs)
          omega
        simp only [f64id, Bool.and_eq_true] at hid
        have hfs := (ih (k - 1) hklt).2.2 fs
          (by simp only [jsize] at hk; omega) hid.2
        simp [goValue, hfs, canonMap_sorted_id fs hid.1]
    · intro xs hk hid
      cases xs with
      | nil => rfl
      | cons x t =>
        have hx1 := jsize_pos x
        have hklt : k - 1 < k := by
          simp only [jsizeL] at hk
          omega
        simp only [f64idL, Bool.and_eq_true] at hid
        have hx := (ih (k - 1) hklt).1 x
          (by simp only [jsizeL] at hk; omega) hid.1
        have ht := (ih (k - 1) hklt).2.1 t
          (by simp only [jsizeL] at hk; omega) hid.2
        simp [goValueL, hx, ht]
    · intro fs hk hid
      cases fs with
      | nil => rfl
      | cons kv t =>
        obtain ⟨k₀, v₀⟩ := kv
        have hv1 := jsize_pos v₀
        have hklt : k - 1 < k := by
          simp only [jsizeF] at hk
          omega
        simp only [f64idF, Bool.and_eq_true] at hid
        have hv := (ih (k - 1) hklt).1 v₀
          (by simp only [jsizeF] at hk; omega) hid.1
        have ht := (ih (k - 1) hklt).2.2 t
          (by simp only [jsizeF] at hk; omega) hid.2
        simp [goFieldsConv, hv, ht]

/-- On any value whose numbers fit the 53-bit significand and whose nested
objects are already canonical, the `interface{}` re-coding is the
identity. -/
theorem goValue_id (v : JVal) (h : f64id v = true) : goValue v = v :=
  (goValue_id_bundle (jsize v)).1 v le_rfl h

/-- Concrete document used to instantiate the transformation theorem. -/
def exFsC3 : List (String × JVal) := [("id", .jstr "x"), ("_version_", .jnum 5)]

/-- Concrete document refuting content-identity of the stripping
transformation: field `n` holds the integer 9007199254740993 = 2^53 + 1,
which `json.Unmarshal` rounds to the binary64 value 9007199254740992. -/
def exFsBig : List (String × JVal) :=
  [("id", .jstr "x"), ("n", .jnum 9007199254740993), ("_version_", .jnum 5)]

/-- `C3` counterexample: on `exFsBig` — distinct field names — the
stripping transformation with the empty field list changes the value of
the field `n`, which is not `_version_`, from 9007199254740993 to
9007199254740992 (and its output bytes carry the rounded digits), so the
output document is not content-identical to the input document off
`_version_`. -/
theorem document_transform_C3_counterexample :
    (exFsBig.map Prod.fst).Nodup ∧
    ("n" : String) ≠ "_version_" ∧
    lookupField exFsBig "n" = some (.jnum 9007199254740993) ∧
    stripDocVal (.jobj exFsBig) =
      some (.jobj [("id", .jstr "x"), ("n", .jnum 9007199254740992)]) ∧
    lookupField (mapDelete (canonMap (goFieldsConv exFsBig)) "_version_") "n" =
      some (.jnum 9007199254740992) ∧
    stripDoc (.jobj exFsBig) =
      some ['{', '"', 'i', 'd', '"', ':', '"', 'x', '"', ',', '"', 'n', '"',
        ':', '9', '0', '0', '7', '1', '9', '9', '2', '5', '4', '7', '4', '0',
        '9', '9', '2', '}'] ∧
    (9007199254740992 : Int) ≠ 9007199254740993 :=
  ⟨by decide, by decide, rfl, rfl, rfl, rfl, by decide⟩

/-- `C3` (amended): Document transformation is a pure function of
(Document, field-list-is-empty).  When the field list is empty the output
document omits `_version_`, and every other field holds the `interface{}`
re-coding `goValue` of its input value — numbers re-coded through
binary64, nested objects rebuilt as sorted Go maps — which is the
identity precisely on values whose numbers fit the 53-bit significand and
whose nested objects are already canonical (`f64id`); when a non-empty
field list was supplied, documents pass through unmodified (encoded
exactly as they arrived, in order). -/
theorem document_transform_C3_amended (fs : List (String × JVal))
    (hnd : (fs.map Prod.fst).Nodup) :
    stripDocVal (.jobj fs) =
      some (.jobj (mapDelete (canonMap (goFieldsConv fs)) "_version_")) ∧
    lookupField (mapDelete (canonMap (goFieldsConv fs)) "_version_")
      "_version_" = none ∧
    (∀ k, k ≠ "_version_" →
      lookupField (mapDelete (canonMap (goFieldsConv fs)) "_version_") k =
        (lookupField fs k).map goValue) ∧
    (∀ v, f64id v = true → goValue v = v) ∧
    (∀ docs : List JVal, saveSolrResp false docs =
      some ('[' :: (joinComma (docs.map encL) ++ [']', '\n']))) := by
  refine ⟨rfl, ?_, ?_, goValue_id, saveSolrResp_nonempty_fl⟩
  · rw [lookupField_mapDelete]
    simp
  · intro k hk
    rw [lookupField_mapDelete]
    simp only [hk, if_false]
    have hnd2 : ((goFieldsConv fs).map Prod.fst).Nodup := by
      rw [goFieldsConv_map_fst]
      exact hnd
    rw [lookupField_canonMap (goFieldsConv fs) k hnd2]
    exact lookupField_goFieldsConv fs k

theorem document_transform_C3_amended_witness :
    (exFsC3.map Prod.fst).Nodup ∧
    lookupField (mapDelete (canonMap (goFieldsConv exFsC3)) "_version_") "id" =
      (lookupField exFsC3 "id").map goValue :=
  ⟨by decide, (document_transform_C3_amended exFsC3 (by decide)).2.2.1 "id"
    (by decide)⟩
